import Mathlib

/-!
Verification of the prediction engine of the indian-stock-predictor repository.

The TypeScript source is shallowly embedded as follows.

JavaScript numbers are modelled by `JSNum`: either a finite value (an exact
rational, idealising IEEE-754 doubles as exact arithmetic), `nan`, or the two
infinities.  The arithmetic operations, `Math.min`/`Math.max`/`Math.abs`,
comparisons, `Math.sqrt`, and `Number.prototype.toFixed`/`parseFloat` follow
the JavaScript semantics for these values (NaN propagation, signed infinities
from division by zero, comparisons with NaN being false, and so on).

The transcendental primitives `Math.sqrt`, `Math.sin`, `Math.cos` and the
constant `Math.PI` have no exact rational semantics; they are abstracted into
a `JSMath` parameter carrying arbitrary rational-valued versions of them.
Every theorem below holds for an arbitrary `JSMath` instance, because no
verified claim depends on the numeric value these primitives return, only on
the fact that they return a finite number on finite non-negative input,
which the wrapper `jsqrt` guarantees by construction.

The neural network of `trainLinearRegressionModel` (TensorFlow.js) trains
non-deterministically (random initialisation, dropout); its forward pass is
abstracted as an arbitrary function `rawOut` from a feature vector to a
`JSNum`.  Everything the source attaches to the model object afterwards
(`normalizationParams`, `trainingPrices`, the feature builder) is embedded
faithfully in the structure `TrainedModel`.
-/

inductive JSNum : Type where
  | num (q : ℚ)
  | nan
  | inf
  | ninf
deriving DecidableEq, Repr

namespace JSNum

/-- JavaScript addition on numbers. -/
def jadd : JSNum → JSNum → JSNum
  | num a, num b => num (a + b)
  | num _, inf => inf
  | num _, ninf => ninf
  | inf, num _ => inf
  | inf, inf => inf
  | inf, ninf => nan
  | ninf, num _ => ninf
  | ninf, inf => nan
  | ninf, ninf => ninf
  | nan, _ => nan
  | _, nan => nan

/-- JavaScript unary minus. -/
def jneg : JSNum → JSNum
  | num a => num (-a)
  | inf => ninf
  | ninf => inf
  | nan => nan

/-- JavaScript subtraction (same semantics as adding the negation). -/
def jsub (a b : JSNum) : JSNum := jadd a (jneg b)

/-- JavaScript multiplication; `Infinity * 0` is NaN. -/
def jmul : JSNum → JSNum → JSNum
  | num a, num b => num (a * b)
  | num a, inf => if a = 0 then nan else if 0 < a then inf else ninf
  | num a, ninf => if a = 0 then nan else if 0 < a then ninf else inf
  | inf, num b => if b = 0 then nan else if 0 < b then inf else ninf
  | ninf, num b => if b = 0 then nan else if 0 < b then ninf else inf
  | inf, inf => inf
  | inf, ninf => ninf
  | ninf, inf => ninf
  | ninf, ninf => inf
  | nan, _ => nan
  | _, nan => nan

/-- JavaScript division; `0/0` is NaN, `a/0` is a signed infinity for
finite nonzero `a` (the literal `0` is `+0`), `±∞/±∞` is NaN. -/
def jdiv : JSNum → JSNum → JSNum
  | num a, num b =>
      if b = 0 then (if a = 0 then nan else if 0 < a then inf else ninf)
      else num (a / b)
  | num _, inf => num 0
  | num _, ninf => num 0
  | inf, num b => if b < 0 then ninf else inf
  | ninf, num b => if b < 0 then inf else ninf
  | inf, inf => nan
  | inf, ninf => nan
  | ninf, inf => nan
  | ninf, ninf => nan
  | nan, _ => nan
  | _, nan => nan

/-- `Math.min`: NaN if either argument is NaN. -/
def jmin : JSNum → JSNum → JSNum
  | num a, num b => num (min a b)
  | num _, ninf => ninf
  | num a, inf => num a
  | inf, num b => num b
  | inf, inf => inf
  | inf, ninf => ninf
  | ninf, num _ => ninf
  | ninf, inf => ninf
  | ninf, ninf => ninf
  | nan, _ => nan
  | _, nan => nan

/-- `Math.max`: NaN if either argument is NaN. -/
def jmax : JSNum → JSNum → JSNum
  | num a, num b => num (max a b)
  | num _, inf => inf
  | num a, ninf => num a
  | ninf, num b => num b
  | inf, inf => inf
  | inf, ninf => inf
  | ninf, inf => inf
  | ninf, ninf => ninf
  | inf, num _ => inf
  | nan, _ => nan
  | _, nan => nan

/-- `Math.abs`. -/
def jabs : JSNum → JSNum
  | num a => num |a|
  | inf => inf
  | ninf => inf
  | nan => nan

/-- `Math.pow(x, 2)`, which agrees with `x * x` on all JS numbers. -/
def jpow2 (x : JSNum) : JSNum := jmul x x

/-- The JavaScript `<` comparison: false whenever NaN is involved. -/
def jlt : JSNum → JSNum → Bool
  | num a, num b => decide (a < b)
  | num _, inf => true
  | num _, ninf => false
  | inf, num _ => false
  | inf, inf => false
  | inf, ninf => false
  | ninf, num _ => true
  | ninf, inf => true
  | ninf, ninf => false
  | nan, _ => false
  | _, nan => false

/-- The JavaScript `<=` comparison: false whenever NaN is involved. -/
def jsLe : JSNum → JSNum → Bool
  | num a, num b => decide (a ≤ b)
  | num _, inf => true
  | num _, ninf => false
  | inf, num _ => false
  | inf, inf => true
  | inf, ninf => false
  | ninf, num _ => true
  | ninf, inf => true
  | ninf, ninf => true
  | nan, _ => false
  | _, nan => false

/-- The `isNaN` predicate. -/
def isNaN : JSNum → Bool
  | nan => true
  | _ => false

/-- JavaScript truthiness of a number: `0` and NaN are falsy. -/
def truthy : JSNum → Bool
  | num q => decide (q ≠ 0)
  | nan => false
  | inf => true
  | ninf => true

/-- `Math.sqrt` relative to an abstract rational square root `s` for the
non-negative finite case; NaN on negative or NaN input, per JavaScript. -/
def jsqrt (s : ℚ → ℚ) : JSNum → JSNum
  | num q => if q < 0 then nan else num (s q)
  | inf => inf
  | ninf => nan
  | nan => nan

/-- `Math.sin` relative to an abstract rational version `f`; NaN on
non-finite input, per JavaScript. -/
def jsin (f : ℚ → ℚ) : JSNum → JSNum
  | num q => num (f q)
  | _ => nan

/-- `Math.cos` relative to an abstract rational version `f`. -/
def jcos (f : ℚ → ℚ) : JSNum → JSNum
  | num q => num (f q)
  | _ => nan

/-- `arr.reduce((a, b) => a + b, 0)`. -/
def jsum (l : List JSNum) : JSNum := l.foldl jadd (num 0)

/-- JavaScript array indexing `arr[i]` on a rational-valued array; reading
out of bounds yields `undefined`, which behaves as NaN in arithmetic. -/
def jget (l : List ℚ) (i : ℕ) : JSNum :=
  match l[i]? with
  | some q => num q
  | none => nan

/-- JavaScript array indexing on a `JSNum`-valued array. -/
def jgetJ (l : List JSNum) (i : ℕ) : JSNum :=
  match l[i]? with
  | some v => v
  | none => nan

/-- Rounding to `d` decimal digits, as `Number.prototype.toFixed` does:
the nearest multiple of `10^(-d)`, ties going to the larger value. -/
def toFixedQ (d : ℕ) (q : ℚ) : ℚ := (round (q * (10 ^ d : ℚ)) : ℤ) / (10 ^ d : ℚ)

/-- `parseFloat(x.toFixed(d))`: rounds finite values, fixes NaN and the
infinities (their strings parse back to themselves). -/
def jToFixed (d : ℕ) : JSNum → JSNum
  | num q => num (toFixedQ d q)
  | nan => nan
  | inf => inf
  | ninf => ninf

/-- A JS number is finite when it is an actual rational. -/
def IsFin (x : JSNum) : Prop := ∃ q : ℚ, x = num q

@[simp] theorem jadd_num (a b : ℚ) : jadd (num a) (num b) = num (a + b) := rfl

@[simp] theorem jsub_num (a b : ℚ) : jsub (num a) (num b) = num (a - b) := by
  show num (a + -b) = num (a - b)
  rw [← sub_eq_add_neg]

@[simp] theorem jmul_num (a b : ℚ) : jmul (num a) (num b) = num (a * b) := rfl

@[simp] theorem jmin_num (a b : ℚ) : jmin (num a) (num b) = num (min a b) := rfl

@[simp] theorem jmax_num (a b : ℚ) : jmax (num a) (num b) = num (max a b) := rfl

@[simp] theorem jabs_num (a : ℚ) : jabs (num a) = num |a| := rfl

@[simp] theorem jpow2_num (a : ℚ) : jpow2 (num a) = num (a * a) := rfl

@[simp] theorem jneg_num (a : ℚ) : jneg (num a) = num (-a) := rfl

theorem jdiv_num {b : ℚ} (hb : b ≠ 0) (a : ℚ) :
    jdiv (num a) (num b) = num (a / b) := by
  simp [jdiv, hb]

@[simp] theorem jlt_num (a b : ℚ) : jlt (num a) (num b) = decide (a < b) := rfl

@[simp] theorem jsLe_num (a b : ℚ) : jsLe (num a) (num b) = decide (a ≤ b) := rfl

@[simp] theorem isNaN_num (a : ℚ) : isNaN (num a) = false := rfl

@[simp] theorem jToFixed_num (d : ℕ) (a : ℚ) :
    jToFixed d (num a) = num (toFixedQ d a) := rfl

theorem jsqrt_num_nonneg (s : ℚ → ℚ) {q : ℚ} (h : 0 ≤ q) :
    jsqrt s (num q) = num (s q) := by
  simp [jsqrt, not_lt.mpr h]

theorem IsFin.jadd {a b : JSNum} (ha : a.IsFin) (hb : b.IsFin) :
    (jadd a b).IsFin := by
  obtain ⟨x, rfl⟩ := ha
  obtain ⟨y, rfl⟩ := hb
  exact ⟨x + y, rfl⟩

theorem IsFin.jsub {a b : JSNum} (ha : a.IsFin) (hb : b.IsFin) :
    (jsub a b).IsFin := by
  obtain ⟨x, rfl⟩ := ha
  obtain ⟨y, rfl⟩ := hb
  exact ⟨x - y, by simp⟩

theorem IsFin.jmul {a b : JSNum} (ha : a.IsFin) (hb : b.IsFin) :
    (jmul a b).IsFin := by
  obtain ⟨x, rfl⟩ := ha
  obtain ⟨y, rfl⟩ := hb
  exact ⟨x * y, rfl⟩

theorem IsFin.jdiv {a : JSNum} {y : ℚ} (ha : a.IsFin) (hy : y ≠ 0) :
    (jdiv a (num y)).IsFin := by
  obtain ⟨x, rfl⟩ := ha
  exact ⟨x / y, jdiv_num hy x⟩

theorem IsFin.jmin {a b : JSNum} (ha : a.IsFin) (hb : b.IsFin) :
    (jmin a b).IsFin := by
  obtain ⟨x, rfl⟩ := ha
  obtain ⟨y, rfl⟩ := hb
  exact ⟨min x y, rfl⟩

theorem IsFin.jmax {a b : JSNum} (ha : a.IsFin) (hb : b.IsFin) :
    (jmax a b).IsFin := by
  obtain ⟨x, rfl⟩ := ha
  obtain ⟨y, rfl⟩ := hb
  exact ⟨max x y, rfl⟩

theorem IsFin.jabs {a : JSNum} (ha : a.IsFin) : (jabs a).IsFin := by
  obtain ⟨x, rfl⟩ := ha
  exact ⟨|x|, rfl⟩

/-- Folding JS addition over a list all of whose entries are finite, from a
finite accumulator, stays finite. -/
theorem foldl_jadd_fin {β : Type} (f : β → JSNum) {l : List β}
    (hl : ∀ x ∈ l, (f x).IsFin) {acc : JSNum} (hacc : acc.IsFin) :
    (l.foldl (fun a x => jadd a (f x)) acc).IsFin := by
  induction l generalizing acc with
  | nil => exact hacc
  | cons h t ih =>
      exact ih (fun x hx => hl x (List.mem_cons_of_mem _ hx))
        (hacc.jadd (hl h (List.mem_cons_self _ _)))

/-- A sum of a list of finite JS numbers is finite, with the expected value. -/
theorem jsum_map_num (l : List ℚ) : jsum (l.map num) = num l.sum := by
  have key : ∀ (l : List ℚ) (a : ℚ),
      (l.map num).foldl jadd (num a) = num (a + l.sum) := by
    intro l
    induction l with
    | nil => intro a; simp
    | cons h t ih =>
        intro a
        simp only [List.map_cons, List.foldl_cons, jadd_num, List.sum_cons, ih]
        ring_nf
  simpa using key l 0

theorem jsum_fin {l : List JSNum} (hl : ∀ x ∈ l, x.IsFin) : (jsum l).IsFin := by
  have := foldl_jadd_fin (fun x : JSNum => x) hl ⟨0, rfl⟩
  simpa [jsum] using this

/-- Folding JS addition of non-negative finite values from a non-negative
finite accumulator yields a non-negative finite value. -/
theorem foldl_jadd_nonneg {β : Type} {f : β → JSNum} {l : List β}
    (hl : ∀ x ∈ l, ∃ q : ℚ, f x = num q ∧ 0 ≤ q) {a : ℚ} (ha : 0 ≤ a) :
    ∃ q : ℚ, l.foldl (fun acc x => jadd acc (f x)) (num a) = num q ∧ 0 ≤ q := by
  induction l generalizing a with
  | nil => exact ⟨a, rfl, ha⟩
  | cons h t ih =>
      obtain ⟨q, hq, hq0⟩ := hl h (List.mem_cons_self _ _)
      have step : jadd (num a) (f h) = num (a + q) := by rw [hq]; rfl
      simpa [step] using
        ih (fun x hx => hl x (List.mem_cons_of_mem _ hx)) (add_nonneg ha hq0)

/-- `round` is monotone. -/
theorem round_monotone {x y : ℚ} (h : x ≤ y) : round x ≤ round y := by
  rw [round_eq, round_eq]
  exact Int.floor_mono (by linarith)

/-- `toFixed` keeps a value inside an interval whose endpoints are exact
multiples of `10^(-d)`. -/
theorem toFixedQ_mem_Icc (d : ℕ) (zlo zhi : ℤ) {q lo hi : ℚ}
    (hlo : lo = (zlo : ℚ) / (10 ^ d : ℚ)) (hhi : hi = (zhi : ℚ) / (10 ^ d : ℚ))
    (h1 : lo ≤ q) (h2 : q ≤ hi) : lo ≤ toFixedQ d q ∧ toFixedQ d q ≤ hi := by
  have hpow : (0 : ℚ) < (10 ^ d : ℚ) := by positivity
  have hq1 : (zlo : ℚ) ≤ q * (10 ^ d : ℚ) := by
    rw [hlo] at h1
    calc (zlo : ℚ) = (zlo : ℚ) / (10 ^ d : ℚ) * (10 ^ d : ℚ) := by
          field_simp
      _ ≤ q * (10 ^ d : ℚ) := by
          exact mul_le_mul_of_nonneg_right h1 (le_of_lt hpow)
  have hq2 : q * (10 ^ d : ℚ) ≤ (zhi : ℚ) := by
    rw [hhi] at h2
    calc q * (10 ^ d : ℚ) ≤ (zhi : ℚ) / (10 ^ d : ℚ) * (10 ^ d : ℚ) := by
          exact mul_le_mul_of_nonneg_right h2 (le_of_lt hpow)
      _ = (zhi : ℚ) := by field_simp
  have r1 : zlo ≤ round (q * (10 ^ d : ℚ)) := by
    have := round_monotone hq1
    rwa [round_intCast] at this
  have r2 : round (q * (10 ^ d : ℚ)) ≤ zhi := by
    have := round_monotone hq2
    rwa [round_intCast] at this
  constructor
  · rw [hlo, toFixedQ]
    exact div_le_div_of_nonneg_right (by exact_mod_cast r1) hpow.le
  · rw [hhi, toFixedQ]
    exact div_le_div_of_nonneg_right (by exact_mod_cast r2) hpow.le

end JSNum

open JSNum

/-- The abstract transcendental primitives of `Math`, with `Math.PI` (a
rational number in IEEE-754 reality) as an abstract rational constant. -/
structure JSMath where
  sqrt : ℚ → ℚ
  sin : ℚ → ℚ
  cos : ℚ → ℚ
  pi : ℚ

/-- One record of the `stockData` array: `{ date: string; price: number }`,
with the price a finite value as delivered by the data provider. -/
structure PricePoint where
  date : String
  price : ℚ
deriving DecidableEq, Repr

/-- The `trend` union type `'up' | 'down' | 'stable'`. -/
inductive Trend : Type where
  | up
  | down
  | stable
deriving DecidableEq, Repr

/-- The `PredictionResult` shape returned by both prediction functions. -/
structure PredictionResult where
  currentPrice : JSNum
  predictedPrice : JSNum
  confidence : JSNum
  trend : Trend
  change : JSNum
  changePercent : JSNum
deriving DecidableEq, Repr

/-- `stockData.map(d => d.price)`. -/
def pricesOf (l : List PricePoint) : List ℚ := l.map PricePoint.price

/-- `arr.slice(-n)`: the last `min(n, length)` elements. -/
def lastN {α : Type} (n : ℕ) (l : List α) : List α := l.drop (l.length - n)

/-- `prices[prices.length - 1]` in `fastPredictStock`. -/
def fastCurrentPrice (p : List ℚ) : JSNum := jget p (p.length - 1)

/-- `prices.slice(-5).reduce((a, b) => a + b, 0) / 5`. -/
def fastShortMA (p : List ℚ) : JSNum :=
  jdiv (jsum ((lastN 5 p).map num)) (num 5)

/-- `prices.slice(-20).reduce((a, b) => a + b, 0) / 20`: note the divisor is
the constant `20` even when fewer than 20 prices are available. -/
def fastLongMA (p : List ℚ) : JSNum :=
  jdiv (jsum ((lastN 20 p).map num)) (num 20)

/-- `prices.slice(-10)`. -/
def fastRecent (p : List ℚ) : List ℚ := lastN 10 p

/-- `const n = recentPrices.length`. -/
def fastN (p : List ℚ) : ℕ := (fastRecent p).length

/-- `Array.from({length: n}, (_, i) => i)`. -/
def fastXs (p : List ℚ) : List ℚ := (List.range (fastN p)).map (fun i : ℕ => (i : ℚ))

/-- `x.reduce((a, b) => a + b, 0)`. -/
def fastSumX (p : List ℚ) : JSNum := jsum ((fastXs p).map num)

/-- `recentPrices.reduce((a, b) => a + b, 0)`. -/
def fastSumY (p : List ℚ) : JSNum := jsum ((fastRecent p).map num)

/-- `x.reduce((acc, xi, i) => acc + xi * recentPrices[i], 0)`. -/
def fastSumXY (p : List ℚ) : JSNum :=
  ((fastXs p).enum).foldl
    (fun acc q => jadd acc (jmul (num q.2) (jget (fastRecent p) q.1))) (num 0)

/-- `x.reduce((acc, xi) => acc + xi * xi, 0)`. -/
def fastSumXX (p : List ℚ) : JSNum :=
  (fastXs p).foldl (fun acc xi => jadd acc (jmul (num xi) (num xi))) (num 0)

/-- `(n * sumXY - sumX * sumY) / (n * sumXX - sumX * sumX)`. -/
def fastSlope (p : List ℚ) : JSNum :=
  jdiv (jsub (jmul (num (fastN p : ℚ)) (fastSumXY p)) (jmul (fastSumX p) (fastSumY p)))
    (jsub (jmul (num (fastN p : ℚ)) (fastSumXX p)) (jmul (fastSumX p) (fastSumX p)))

/-- `(sumY - slope * sumX) / n`. -/
def fastIntercept (p : List ℚ) : JSNum :=
  jdiv (jsub (fastSumY p) (jmul (fastSlope p) (fastSumX p))) (num (fastN p : ℚ))

/-- `slope * n + intercept`. -/
def fastNextPrice (p : List ℚ) : JSNum :=
  jadd (jmul (fastSlope p) (num (fastN p : ℚ))) (fastIntercept p)

/-- `prices.slice(1).map((price, i) => (price - prices[i]) / prices[i])`. -/
def returnsOf (p : List ℚ) : List JSNum :=
  ((p.drop 1).enum).map (fun q => jdiv (jsub (num q.2) (jget p q.1)) (jget p q.1))

/-- `returns.reduce((a, b) => a + b, 0) / returns.length`. -/
def avgReturnOf (p : List ℚ) : JSNum :=
  jdiv (jsum (returnsOf p)) (num ((returnsOf p).length : ℚ))

/-- `returns.reduce((sum, ret) => sum + Math.pow(ret - avgReturn, 2), 0) / returns.length`. -/
def varianceOf (p : List ℚ) : JSNum :=
  jdiv ((returnsOf p).foldl
      (fun sum ret => jadd sum (jpow2 (jsub ret (avgReturnOf p)))) (num 0))
    (num ((returnsOf p).length : ℚ))

/-- `Math.sqrt(variance)` of `fastPredictStock`. -/
def fastVolatility (M : JSMath) (p : List ℚ) : JSNum := jsqrt M.sqrt (varianceOf p)

/-- `nextPrice - currentPrice`. -/
def fastChange (p : List ℚ) : JSNum := jsub (fastNextPrice p) (fastCurrentPrice p)

/-- `(change / currentPrice) * 100`. -/
def fastChangePercent (p : List ℚ) : JSNum :=
  jmul (jdiv (fastChange p) (fastCurrentPrice p)) (num 100)

/-- `Math.abs(slope)`. -/
def fastTrendStrength (p : List ℚ) : JSNum := jabs (fastSlope p)

/-- `Math.abs(shortMA - longMA) / currentPrice`. -/
def fastMaConsistency (p : List ℚ) : JSNum :=
  jdiv (jabs (jsub (fastShortMA p) (fastLongMA p))) (fastCurrentPrice p)

/-- `Math.min(90, (trendStrength * 1000 + maConsistency * 100))`. -/
def fastBaseConfidence (p : List ℚ) : JSNum :=
  jmin (num 90)
    (jadd (jmul (fastTrendStrength p) (num 1000)) (jmul (fastMaConsistency p) (num 100)))

/-- `Math.min(30, volatility * 500)`. -/
def fastVolatilityPenalty (M : JSMath) (p : List ℚ) : JSNum :=
  jmin (num 30) (jmul (fastVolatility M p) (num 500))

/-- `Math.max(45, Math.min(90, baseConfidence - volatilityPenalty))`. -/
def fastConfidence (M : JSMath) (p : List ℚ) : JSNum :=
  jmax (num 45) (jmin (num 90) (jsub (fastBaseConfidence p) (fastVolatilityPenalty M p)))

/-- The trend classifier shared by both result builders:
`Math.abs(change) < currentPrice * 0.005 ? 'stable' : (change > 0 ? 'up' : 'down')`. -/
def trendOf (change currentPrice : JSNum) : Trend :=
  if jlt (jabs change) (jmul currentPrice (num (5 / 1000))) then Trend.stable
  else if jlt (num 0) change then Trend.up
  else Trend.down

/-- `fastPredictStock`: the statistical fallback predictor. -/
def fastPredictStock (M : JSMath) (stockData : List PricePoint) :
    Except String PredictionResult :=
  if stockData.length < 10 then Except.error "Insufficient data for prediction"
  else
    let p := pricesOf stockData
    Except.ok
      { currentPrice := jToFixed 2 (fastCurrentPrice p)
        predictedPrice := jToFixed 2 (fastNextPrice p)
        confidence := jToFixed 1 (fastConfidence M p)
        trend := trendOf (fastChange p) (fastCurrentPrice p)
        change := jToFixed 2 (fastChange p)
        changePercent := jToFixed 2 (fastChangePercent p) }

/-- `arr.slice(a, b)` for `0 ≤ a ≤ b`. -/
def jsSlice (l : List ℚ) (a b : ℕ) : List ℚ := (l.take b).drop a

/-- `(x - xMin) / (xMax - xMin)` in `createAdvancedFeatures`.  The source
has no guard for `xMax == xMin`. -/
def featXNorm (xMin xMax x : ℚ) : JSNum :=
  jdiv (jsub (num x) (num xMin)) (jsub (num xMax) (num xMin))

/-- `ma3`: `index >= 2 ? (prices[index] + prices[index-1] + prices[index-2]) / 3
: prices[index]`. -/
def featMA3 (prices : List ℚ) (index : ℕ) : JSNum :=
  if 2 ≤ index then
    jdiv (jadd (jadd (jget prices index) (jget prices (index - 1)))
      (jget prices (index - 2))) (num 3)
  else jget prices index

/-- `ma5`: `index >= 4 ? prices.slice(Math.max(0, index-4), index+1)
.reduce((a, b) => a + b, 0) / Math.min(5, index+1) : prices[index]`.
For `index < 4` this is the bare current price, not a prefix mean. -/
def featMA5 (prices : List ℚ) (index : ℕ) : JSNum :=
  if 4 ≤ index then
    jdiv (jsum ((jsSlice prices (index - 4) (index + 1)).map num))
      (num (min 5 (index + 1) : ℕ))
  else jget prices index

/-- `momentum`: `index > 0 ? prices[index] - prices[index-1] : 0`. -/
def featMomentum (prices : List ℚ) (index : ℕ) : JSNum :=
  if 0 < index then jsub (jget prices index) (jget prices (index - 1)) else num 0

/-- `volatility`: `index >= 5 ? Math.sqrt(prices.slice(Math.max(0, index-4),
index+1).reduce((sum, p) => sum + Math.pow(p - ma5, 2), 0) / Math.min(5, index+1)) : 0`. -/
def featVolatility (M : JSMath) (prices : List ℚ) (index : ℕ) : JSNum :=
  if 5 ≤ index then
    jsqrt M.sqrt
      (jdiv ((jsSlice prices (index - 4) (index + 1)).foldl
          (fun sum p => jadd sum (jpow2 (jsub (num p) (featMA5 prices index)))) (num 0))
        (num (min 5 (index + 1) : ℕ)))
  else num 0

/-- `createAdvancedFeatures(x, prices, index)` with the closure-captured
normalization extrema as explicit arguments: the 9-entry feature vector. -/
def createAdvancedFeatures (M : JSMath) (xMin xMax yMin yMax : ℚ)
    (x : ℚ) (prices : List ℚ) (index : ℕ) : List JSNum :=
  let xNorm := featXNorm xMin xMax x
  [ xNorm,
    jmul xNorm xNorm,
    jsin M.sin (jmul (jmul xNorm (num 2)) (num M.pi)),
    jcos M.cos (jmul (jmul xNorm (num 2)) (num M.pi)),
    jsin M.sin (jmul (jmul xNorm (num 4)) (num M.pi)),
    jdiv (jsub (featMA3 prices index) (num yMin)) (jsub (num yMax) (num yMin)),
    jdiv (jsub (featMA5 prices index) (num yMin)) (jsub (num yMax) (num yMin)),
    jdiv (featMomentum prices index) (jsub (num yMax) (num yMin)),
    jdiv (featVolatility M prices index) (jsub (num yMax) (num yMin)) ]

/-- `Math.min(...l)` over a non-empty array (the empty case, which yields
`Infinity` in JavaScript, is never reached by the embedded call sites). -/
def qListMin : List ℚ → ℚ
  | [] => 0
  | h :: t => t.foldl min h

/-- `Math.max(...l)` over a non-empty array. -/
def qListMax : List ℚ → ℚ
  | [] => 0
  | h :: t => t.foldl max h

/-- The data the source attaches to the trained `tf.Sequential` object:
the normalization parameters `{xMin, xMax, yMin, yMax}` and the training
prices.  The trained network itself is abstracted as `rawOut`, an arbitrary
function from a feature row to the sigmoid-layer output. -/
structure TrainedModel where
  rawOut : List JSNum → JSNum
  xMin : ℚ
  xMax : ℚ
  yMin : ℚ
  yMax : ℚ
  trainingPrices : List ℚ

/-- The deterministic part of `trainLinearRegressionModel`: computes the
normalization extrema of `xs`/`ys` and stores `ys` as the training prices.
The stochastic gradient training only determines `rawOut`. -/
def mkTrainedModel (rawOut : List JSNum → JSNum) (xs ys : List ℚ) : TrainedModel :=
  { rawOut := rawOut
    xMin := qListMin xs
    xMax := qListMax xs
    yMin := qListMin ys
    yMax := qListMax ys
    trainingPrices := ys }

/-- `predictNextDay(model, nextDayIndex)`: build one feature row at the index
clamped to the end of the training series, run the network, denormalize,
substitute `yMin` for NaN, and clamp to `[0.8 * yMin, 1.2 * yMax]`. -/
def predictNextDay (M : JSMath) (model : TrainedModel) (nextDayIndex : ℕ) : JSNum :=
  let features := createAdvancedFeatures M model.xMin model.xMax model.yMin model.yMax
    (nextDayIndex : ℚ) model.trainingPrices (min nextDayIndex (model.trainingPrices.length - 1))
  let normalizedResult := model.rawOut features
  let result := jadd (jmul normalizedResult (num (model.yMax - model.yMin))) (num model.yMin)
  if result.isNaN then num model.yMin
  else jmax (num (model.yMin * (8 / 10))) (jmin (num (model.yMax * (12 / 10))) result)

/-- `getPredictionsForData(model, xs)`: batch version; NaN rows are replaced by
`trainingPrices[i] || (yMin + yMax) / 2` and the rest clamped like single
predictions. -/
def getPredictionsForData (M : JSMath) (model : TrainedModel) (xs : List ℚ) : List JSNum :=
  let xsFeatures := (xs.enum).map (fun q =>
    createAdvancedFeatures M model.xMin model.xMax model.yMin model.yMax
      q.2 model.trainingPrices q.1)
  let normalizedResults := xsFeatures.map model.rawOut
  let result := normalizedResults.map (fun v =>
    jadd (jmul v (num (model.yMax - model.yMin))) (num model.yMin))
  (result.enum).map (fun q =>
    if (q.2).isNaN then
      (if truthy (jget model.trainingPrices q.1) then jget model.trainingPrices q.1
       else num ((model.yMin + model.yMax) / 2))
    else jmax (num (model.yMin * (8 / 10))) (jmin (num (model.yMax * (12 / 10))) q.2))

/-- `actual.reduce((sum, val) => sum + val, 0) / actual.length`. -/
def r2Mean (actual : List JSNum) : JSNum :=
  jdiv (jsum actual) (num (actual.length : ℚ))

/-- `actual.reduce((sum, val) => sum + Math.pow(val - actualMean, 2), 0)`. -/
def r2SStot (actual : List JSNum) : JSNum :=
  actual.foldl (fun sum val => jadd sum (jpow2 (jsub val (r2Mean actual)))) (num 0)

/-- `actual.reduce((sum, val, i) => sum + Math.pow(val - predicted[i], 2), 0)`. -/
def r2SSres (actual predicted : List JSNum) : JSNum :=
  (actual.enum).foldl
    (fun sum q => jadd sum (jpow2 (jsub q.2 (jgetJ predicted q.1)))) (num 0)

/-- `calculateR2Score(actual, predicted)`. -/
def calculateR2Score (actual predicted : List JSNum) : Except String JSNum :=
  if actual.length ≠ predicted.length then
    Except.error "Actual and predicted arrays must have the same length"
  else if actual.any isNaN || predicted.any isNaN then Except.ok (num 0)
  else if r2SStot actual = num 0 then Except.ok (num 0)
  else
    let r2 := jsub (num 1) (jdiv (r2SSres actual predicted) (r2SStot actual))
    Except.ok (if r2.isNaN then num 0 else r2)

/-- `calculateMSE(actual, predicted)`. -/
def calculateMSE (actual predicted : List JSNum) : Except String JSNum :=
  if actual.length ≠ predicted.length then
    Except.error "Actual and predicted arrays must have the same length"
  else if actual.any isNaN || predicted.any isNaN then Except.ok (num 0)
  else
    let mse := jdiv (r2SSres actual predicted) (num (actual.length : ℚ))
    Except.ok (if mse.isNaN then num 0 else mse)

/-- `calculateVolatility(prices)` of the page module: identical return/mean/
variance formula to the inline computation of `fastPredictStock`, with an
explicit guard for fewer than two prices. -/
def calculateVolatility (M : JSMath) (prices : List ℚ) : JSNum :=
  if prices.length < 2 then num 0
  else jsqrt M.sqrt (varianceOf prices)

/-- Lexicographic comparison of strings by character code, the order
JavaScript's default `Array.prototype.sort` uses on string keys. -/
def lexLe : List Char → List Char → Bool
  | [], _ => true
  | _ :: _, [] => false
  | a :: as, b :: bs =>
      if a.val < b.val then true
      else if b.val < a.val then false
      else lexLe as bs

/-- The sort order on date strings. -/
def dateLe (a b : String) : Prop := lexLe a.data b.data = true

instance : DecidableRel dateLe := fun a b => by unfold dateLe; infer_instance

/-- `Object.keys(timeSeries).sort()`: JavaScript's sort algorithm is
implementation-defined, so any function producing the keys in lexicographic
order is a faithful model; insertion sort is used here. -/
def jsSortKeys (l : List String) : List String := List.insertionSort dateLe l

/-- `acc[item.date] = {'4. close': item.price.toString()}` on a JS object:
overwrite in place when the key exists, append otherwise.  The price string
round-trips exactly (`parseFloat(p.toString()) === p`), so the close value
is kept as the rational itself. -/
def jsObjInsert (o : List (String × ℚ)) (k : String) (v : ℚ) : List (String × ℚ) :=
  if (o.map Prod.fst).contains k then
    o.map (fun e => if e.1 = k then (k, v) else e)
  else o ++ [(k, v)]

/-- `stockData.reduce((acc, item) => { acc[item.date] = ...; return acc }, {})`. -/
def objFromList (l : List PricePoint) : List (String × ℚ) :=
  l.foldl (fun o d => jsObjInsert o d.date d.price) []

/-- Reading `timeSeries[date]['4. close']` from the object. -/
def lookupClose (o : List (String × ℚ)) (d : String) : Option ℚ :=
  (o.find? (fun e => e.1 = d)).map Prod.snd

/-- The `{prices, dates, xs}` result of `processStockData`. -/
structure ProcessedData where
  dates : List String
  prices : List ℚ
  xs : List ℚ
deriving Repr

/-- `processStockData`: sort the dates, parse the closes (`parseFloat` of the
stringified rational is exact, so the `isNaN` validation never fires on data
built from actual numbers; a missing key would raise a TypeError, modelled as
an error value), and fail when no prices remain. -/
def processStockData (o : List (String × ℚ)) : Except String ProcessedData :=
  let dates := jsSortKeys (o.map Prod.fst)
  match dates.mapM (fun d => lookupClose o d) with
  | none => Except.error "TypeError: invalid price data"
  | some prices =>
      if prices.length = 0 then Except.error "No valid price data found"
      else Except.ok
        { dates := dates
          prices := prices
          xs := (List.range dates.length).map (fun i : ℕ => (i : ℚ)) }

/-- The body of the inner `try` of `enhancedPredictStock`: process the data,
await the race between training and the 8-second timeout (`race = none`
models a timeout or training failure, `race = some rawOut` a resolved model),
run the batch and single-step inference, compute the metrics, and blend the
confidence. -/
def enhancedInner (M : JSMath) (race : Option (List JSNum → JSNum))
    (stockData : List PricePoint) : Except String PredictionResult := do
  let pd ← processStockData (objFromList stockData)
  let rawOut ← match race with
    | none => Except.error "ML timeout"
    | some f => Except.ok f
  let model := mkTrainedModel rawOut pd.xs pd.prices
  let predictions := getPredictionsForData M model pd.xs
  let nextPrice := predictNextDay M model pd.xs.length
  let r2Score ← calculateR2Score (pd.prices.map num) predictions
  let mse ← calculateMSE (pd.prices.map num) predictions
  let currentPrice ← match (pricesOf stockData)[stockData.length - 1]? with
    | none => Except.error "TypeError: no last element"
    | some q => Except.ok q
  let change := jsub nextPrice (num currentPrice)
  let changePercent := jmul (jdiv change (num currentPrice)) (num 100)
  let baseConfidence := jmax (num 0) (jmin (num 100) (jmul r2Score (num 100)))
  let mseConfidence := jmax (num 0)
    (jsub (num 100) (jmul (jdiv mse (num currentPrice)) (num 100)))
  let volatility := calculateVolatility M pd.prices
  let volatilityPenalty := jmin (num 20) (jmul volatility (num 10))
  let confidence := jmax (num 40) (jmin (num 95)
    (jsub (jadd (jmul baseConfidence (num (6 / 10))) (jmul mseConfidence (num (4 / 10))))
      volatilityPenalty))
  Except.ok
    { currentPrice := jToFixed 2 (num currentPrice)
      predictedPrice := jToFixed 2 nextPrice
      confidence := jToFixed 1 confidence
      trend := trendOf change (num currentPrice)
      change := jToFixed 2 change
      changePercent := jToFixed 2 changePercent }

/-- `enhancedPredictStock`: compute the fallback first; if it throws, rethrow
(outer catch).  Then try the enhanced path; any error there is swallowed and
the fallback result returned instead. -/
def enhancedPredictStock (M : JSMath) (race : Option (List JSNum → JSNum))
    (stockData : List PricePoint) : Except String PredictionResult :=
  match fastPredictStock M stockData with
  | Except.error e => Except.error e
  | Except.ok fastResult =>
      match enhancedInner M race stockData with
      | Except.ok r => Except.ok r
      | Except.error _ => Except.ok fastResult

/-- A state-threaded read of `arr.length`: returns the value and the array
contents after the operation (unchanged). -/
def jsLengthSt {α : Type} (arr : List α) : ℕ × List α := (arr.length, arr)

/-- A state-threaded `arr.map(f)`: allocates a fresh array and leaves the
receiver unchanged. -/
def jsMapSt {α β : Type} (f : α → β) (arr : List α) : List β × List α :=
  (arr.map f, arr)

/-- `fastPredictStock` with the contents of the caller's `stockData` array
threaded through every operation the function performs on it (a length read
and a `map`); all remaining computation happens on the freshly derived
`prices` array and further fresh arrays obtained from it by `slice`, `map`
and `reduce`, none of which alias the input.  The second component is the
contents of `stockData` when the function returns. -/
def fastPredictStockSt (M : JSMath) (stockData : List PricePoint) :
    Except String PredictionResult × List PricePoint :=
  let r1 := jsLengthSt stockData
  if r1.1 < 10 then (Except.error "Insufficient data for prediction", r1.2)
  else
    let r2 := jsMapSt PricePoint.price r1.2
    let p := r2.1
    (Except.ok
      { currentPrice := jToFixed 2 (fastCurrentPrice p)
        predictedPrice := jToFixed 2 (fastNextPrice p)
        confidence := jToFixed 1 (fastConfidence M p)
        trend := trendOf (fastChange p) (fastCurrentPrice p)
        change := jToFixed 2 (fastChange p)
        changePercent := jToFixed 2 (fastChangePercent p) }, r2.2)

/-- Decidable equality for `Except` results, used to evaluate the embedding
on concrete inputs. -/
instance {ε α : Type} [DecidableEq ε] [DecidableEq α] : DecidableEq (Except ε α) :=
  fun a b =>
    match a, b with
    | Except.ok x, Except.ok y => decidable_of_iff (x = y) (by simp)
    | Except.error x, Except.error y => decidable_of_iff (x = y) (by simp)
    | Except.ok _, Except.error _ => isFalse (by simp)
    | Except.error _, Except.ok _ => isFalse (by simp)

/-- A strictly increasing price list, as an executable predicate. -/
def strictlyIncreasing : List ℚ → Bool
  | [] => true
  | [_] => true
  | a :: b :: t => decide (a < b) && strictlyIncreasing (b :: t)

/-- A concrete instance of the abstract `Math` primitives, used to evaluate
the embedding on concrete inputs (the verified claims hold for every
instance). -/
def M0 : JSMath := ⟨fun _ => 0, fun _ => 0, fun _ => 0, 0⟩

/-- Claim C1, as stated, is false: for the 10-point all-ones series the long
moving average computed by `fastPredictStock` is `10/20 = 1/2`, not the
arithmetic mean `1` of the last `min(20, length) = 10` prices. -/
theorem C1_counterexample :
    fastLongMA [1, 1, 1, 1, 1, 1, 1, 1, 1, 1] ≠
      num ((lastN 20 [(1 : ℚ), 1, 1, 1, 1, 1, 1, 1, 1, 1]).sum /
        ((lastN 20 [(1 : ℚ), 1, 1, 1, 1, 1, 1, 1, 1, 1]).length : ℚ)) := by
  with_unfolding_all decide

/-- Claim C1 (amended): the long moving average equals the sum of the last
`min(20, length)` prices divided by the constant 20; only for length at least
20 is this the arithmetic mean of the window. -/
theorem C1_theorem (p : List ℚ) : fastLongMA p = num ((lastN 20 p).sum / 20) := by
  rw [fastLongMA, jsum_map_num, jdiv_num (by norm_num)]

/-- Claim C8, as stated, is false: at index 2 of the series `[1, 2, 3]` the
`ma5` value is the bare current price `3`, not the mean `2` of the
`min(5, 3) = 3` available prefix points. -/
theorem C8_counterexample :
    featMA5 [1, 2, 3] 2 = num 3 ∧
      featMA5 [1, 2, 3] 2 ≠
        num (([(1 : ℚ), 2, 3].take (2 + 1)).sum / ((2 + 1 : ℕ) : ℚ)) := by
  constructor
  · with_unfolding_all decide
  · with_unfolding_all decide

/-- Claim C8 (amended): for every index below 4 the 5-day moving-average
feature of `createAdvancedFeatures` is just `prices[index]` itself, not a
prefix mean; the `min(5, index+1)` window only applies from index 4 on. -/
theorem C8_theorem (prices : List ℚ) (i : ℕ) (h : i < 4) :
    featMA5 prices i = jget prices i := by
  rw [featMA5, if_neg (by omega)]

/-- Witness for C8 at the concrete series `[3, 7]`, index 1. -/
theorem C8_witness : 1 < 4 ∧ featMA5 [3, 7] 1 = jget [3, 7] 1 :=
  ⟨by omega, C8_theorem [3, 7] 1 (by omega)⟩

/-- Dividing any JS number by the finite value `0` never produces a finite
value: the result is NaN or a signed infinity. -/
theorem not_isFin_jdiv_num_zero (a : JSNum) : ¬ (jdiv a (num 0)).IsFin := by
  rintro ⟨x, h⟩
  cases a with
  | num q =>
      by_cases hq : q = 0
      · subst hq; simp [jdiv] at h
      · by_cases hq2 : 0 < q
        · simp [jdiv, hq, hq2] at h
        · simp [jdiv, hq, hq2] at h
  | nan => simp [jdiv] at h
  | inf => simp [jdiv] at h
  | ninf => simp [jdiv] at h

/-- Claim C2, as stated, is false: on the degenerate input with
`xMax == xMin` (single time index) and `yMax == yMin` (constant price), the
computed `xNorm` and all four price-normalized features of
`createAdvancedFeatures` are NaN, not the guarded value 0. -/
theorem C2_counterexample :
    ((jgetJ (createAdvancedFeatures M0 0 0 5 5 0 [5] 0) 0).isNaN = true ∧
        jgetJ (createAdvancedFeatures M0 0 0 5 5 0 [5] 0) 0 ≠ num 0) ∧
      ((jgetJ (createAdvancedFeatures M0 0 0 5 5 0 [5] 0) 5).isNaN = true ∧
        (jgetJ (createAdvancedFeatures M0 0 0 5 5 0 [5] 0) 6).isNaN = true ∧
        (jgetJ (createAdvancedFeatures M0 0 0 5 5 0 [5] 0) 7).isNaN = true ∧
        (jgetJ (createAdvancedFeatures M0 0 0 5 5 0 [5] 0) 8).isNaN = true) := by
  with_unfolding_all decide

/-- Claim C2 (amended): `createAdvancedFeatures` has no degenerate-range
guard.  Whenever `xMax == xMin` the `xNorm` entry is non-finite (NaN or a
signed infinity), and whenever `yMax == yMin` each of the four
price-normalized entries (3-day MA, 5-day MA, momentum, volatility) is
non-finite; none of them is ever the finite value 0 in these cases. -/
theorem C2_theorem (M : JSMath) (xMin xMax yMin yMax x : ℚ)
    (prices : List ℚ) (index : ℕ) :
    (xMax = xMin → ¬ (featXNorm xMin xMax x).IsFin) ∧
    (yMax = yMin →
      ¬ (jdiv (jsub (featMA3 prices index) (num yMin))
          (jsub (num yMax) (num yMin))).IsFin ∧
      ¬ (jdiv (jsub (featMA5 prices index) (num yMin))
          (jsub (num yMax) (num yMin))).IsFin ∧
      ¬ (jdiv (featMomentum prices index)
          (jsub (num yMax) (num yMin))).IsFin ∧
      ¬ (jdiv (featVolatility M prices index)
          (jsub (num yMax) (num yMin))).IsFin) := by
  constructor
  · intro h
    simp only [featXNorm, h, jsub_num, sub_self]
    exact not_isFin_jdiv_num_zero _
  · intro h
    simp only [h, jsub_num, sub_self]
    exact ⟨not_isFin_jdiv_num_zero _, not_isFin_jdiv_num_zero _,
      not_isFin_jdiv_num_zero _, not_isFin_jdiv_num_zero _⟩

/-- Witness for C2 at the concrete degenerate input used in the
counterexample. -/
theorem C2_witness :
    ¬ (featXNorm 0 0 0).IsFin ∧
      ¬ (jdiv (jsub (featMA3 [5] 0) (num 5)) (jsub (num 5) (num 5))).IsFin :=
  ⟨(C2_theorem M0 0 0 5 5 0 [5] 0).1 rfl,
    ((C2_theorem M0 0 0 5 5 0 [5] 0).2 rfl).1⟩

/-- A strictly increasing 10-point series on which the OLS extrapolation of
the last 10 prices falls far below the final price. -/
def cexSeries : List PricePoint :=
  [⟨"2024-01-01", 1⟩, ⟨"2024-01-02", 2⟩, ⟨"2024-01-03", 3⟩, ⟨"2024-01-04", 4⟩,
   ⟨"2024-01-05", 5⟩, ⟨"2024-01-08", 6⟩, ⟨"2024-01-09", 7⟩, ⟨"2024-01-10", 8⟩,
   ⟨"2024-01-11", 9⟩, ⟨"2024-01-12", 100⟩]

/-- Claim C7, as stated, is false: the series `1, 2, ..., 9, 100` is strictly
increasing and has length 10, yet the fallback regression extrapolates the
next price to 47, below the current price 100, so the reported trend is
`down`, not `up`. -/
theorem C7_counterexample :
    strictlyIncreasing (pricesOf cexSeries) = true ∧ 10 ≤ cexSeries.length ∧
      Except.map PredictionResult.trend (fastPredictStock M0 cexSeries) =
        Except.ok Trend.down := by
  refine ⟨by with_unfolding_all decide, by with_unfolding_all decide, ?_⟩
  with_unfolding_all decide

/-- Claim C7 (amended): a strictly increasing series need not produce trend
`up`.  What does hold: when the prices form a 10-point arithmetic progression
with positive current price and common difference `d` at least `0.005`
times the current price, the extrapolated change equals `d` and the fallback
trend is `up`. -/
theorem C7_theorem (M : JSMath) (l : List PricePoint) (a d : ℚ)
    (hp : pricesOf l = [a, a + d, a + 2*d, a + 3*d, a + 4*d, a + 5*d, a + 6*d,
      a + 7*d, a + 8*d, a + 9*d])
    (hd : (a + 9*d) * (5/1000) ≤ d) (hpos : 0 < a + 9*d) :
    Except.map PredictionResult.trend (fastPredictStock M l) = Except.ok Trend.up := by
  have hlen : l.length = 10 := by
    have h := congrArg List.length hp
    simpa [pricesOf] using h
  have hrec : fastRecent (pricesOf l) = [a, a + d, a + 2*d, a + 3*d, a + 4*d, a + 5*d,
      a + 6*d, a + 7*d, a + 8*d, a + 9*d] := by
    rw [fastRecent, lastN, hp]
    rfl
  have hN : fastN (pricesOf l) = 10 := by rw [fastN, hrec]; rfl
  have hxs : fastXs (pricesOf l) = [0, 1, 2, 3, 4, 5, 6, 7, 8, 9] := by
    rw [fastXs, hN]
    with_unfolding_all decide
  have hsumx : fastSumX (pricesOf l) = num 45 := by
    rw [fastSumX, hxs]
    with_unfolding_all decide
  have hsumxx : fastSumXX (pricesOf l) = num 285 := by
    rw [fastSumXX, hxs]
    with_unfolding_all decide
  have hsumy : fastSumY (pricesOf l) = num (10*a + 45*d) := by
    rw [fastSumY, hrec, jsum_map_num]
    norm_num
    ring
  have hsumxy : fastSumXY (pricesOf l) = num (45*a + 285*d) := by
    rw [fastSumXY, hxs, hrec]
    show num (0 + 0 * a + 1 * (a + d) + 2 * (a + 2*d) + 3 * (a + 3*d) + 4 * (a + 4*d)
      + 5 * (a + 5*d) + 6 * (a + 6*d) + 7 * (a + 7*d) + 8 * (a + 8*d) + 9 * (a + 9*d))
      = num (45*a + 285*d)
    norm_num
    ring
  have h5 : (0 : ℚ) < 5 / 1000 := by norm_num
  have hd0 : 0 < d := lt_of_lt_of_le (mul_pos hpos h5) hd
  have hslope : fastSlope (pricesOf l) = num d := by
    rw [fastSlope, hN, hsumxy, hsumx, hsumy, hsumxx]
    simp only [jmul_num, jsub_num]
    rw [jdiv_num (by norm_num)]
    congr 1
    push_cast
    field_simp
    ring
  have hintercept : fastIntercept (pricesOf l) = num a := by
    rw [fastIntercept, hN, hslope, hsumx, hsumy]
    simp only [jmul_num, jsub_num]
    rw [jdiv_num (by norm_num)]
    congr 1
    push_cast
    field_simp
    ring
  have hnext : fastNextPrice (pricesOf l) = num (d * 10 + a) := by
    rw [fastNextPrice, hN, hslope, hintercept]
    simp only [jmul_num, jadd_num]
    norm_num
  have hcur : fastCurrentPrice (pricesOf l) = num (a + 9*d) := by
    rw [fastCurrentPrice, hp]
    rfl
  have hchange : fastChange (pricesOf l) = num d := by
    rw [fastChange, hnext, hcur, jsub_num]
    congr 1
    ring
  have habs : |d| = d := abs_of_pos hd0
  have hcond1 : jlt (jabs (fastChange (pricesOf l)))
      (jmul (fastCurrentPrice (pricesOf l)) (num (5 / 1000))) = false := by
    rw [hchange, hcur]
    simp only [jabs_num, jmul_num, jlt_num, habs]
    simp only [decide_eq_false_iff_not, not_lt]
    exact hd
  have hcond2 : jlt (num 0) (fastChange (pricesOf l)) = true := by
    rw [hchange]
    simp only [jlt_num, decide_eq_true_eq]
    exact hd0
  rw [fastPredictStock, if_neg (by omega)]
  simp only [Except.map, trendOf, hcond1, hcond2]
  simp

/-- The 10-point arithmetic series 100, 101, ..., 109. -/
def apSeries : List PricePoint :=
  [⟨"2024-01-01", 100⟩, ⟨"2024-01-02", 101⟩, ⟨"2024-01-03", 102⟩, ⟨"2024-01-04", 103⟩,
   ⟨"2024-01-05", 104⟩, ⟨"2024-01-08", 105⟩, ⟨"2024-01-09", 106⟩, ⟨"2024-01-10", 107⟩,
   ⟨"2024-01-11", 108⟩, ⟨"2024-01-12", 109⟩]

/-- Witness for C7 at the series 100, 101, ..., 109. -/
theorem C7_witness :
    pricesOf apSeries = [100, 100 + 1, 100 + 2*1, 100 + 3*1, 100 + 4*1, 100 + 5*1,
        100 + 6*1, 100 + 7*1, 100 + 8*1, 100 + 9*1] ∧
      ((100 : ℚ) + 9*1) * (5/1000) ≤ 1 ∧ (0 : ℚ) < 100 + 9*1 ∧
      Except.map PredictionResult.trend (fastPredictStock M0 apSeries) =
        Except.ok Trend.up :=
  ⟨by with_unfolding_all decide, by norm_num, by norm_num,
    C7_theorem M0 apSeries 100 1 (by with_unfolding_all decide) (by norm_num) (by norm_num)⟩

/-- Claim C5: `calculateR2Score` and `calculateMSE` fail with the
length-mismatch error exactly when the input lengths differ; with equal
lengths, R-squared is exactly 0 whenever the total sum of squares is 0 or
either array contains NaN, MSE is 0 on NaN-containing input, and neither
function ever returns NaN. -/
theorem C5_theorem :
    (∀ a p : List JSNum,
      (∃ e, calculateR2Score a p = Except.error e) ↔ a.length ≠ p.length) ∧
    (∀ a p : List JSNum,
      (∃ e, calculateMSE a p = Except.error e) ↔ a.length ≠ p.length) ∧
    (∀ a p : List JSNum, a.length = p.length →
      (r2SStot a = num 0 ∨ a.any isNaN = true ∨ p.any isNaN = true) →
      calculateR2Score a p = Except.ok (num 0)) ∧
    (∀ a p : List JSNum, a.length = p.length →
      (a.any isNaN = true ∨ p.any isNaN = true) →
      calculateMSE a p = Except.ok (num 0)) ∧
    (∀ a p : List JSNum, a.length = p.length →
      ∃ v, calculateR2Score a p = Except.ok v ∧ v.isNaN = false) ∧
    (∀ a p : List JSNum, a.length = p.length →
      ∃ v, calculateMSE a p = Except.ok v ∧ v.isNaN = false) := by
  refine ⟨?_, ?_, ?_, ?_, ?_, ?_⟩
  · intro a p
    constructor
    · rintro ⟨e, he⟩
      by_contra hlen
      rw [calculateR2Score, if_neg (by simp [hlen])] at he
      split at he <;> simp at he
      split at he <;> simp at he
    · intro hlen
      rw [calculateR2Score, if_pos hlen]
      exact ⟨_, rfl⟩
  · intro a p
    constructor
    · rintro ⟨e, he⟩
      by_contra hlen
      rw [calculateMSE, if_neg (by simp [hlen])] at he
      split at he <;> simp at he
    · intro hlen
      rw [calculateMSE, if_pos hlen]
      exact ⟨_, rfl⟩
  · intro a p hlen hzero
    rw [calculateR2Score, if_neg (by simp [hlen])]
    rcases hzero with h | h | h
    · by_cases hnan : (a.any isNaN || p.any isNaN) = true
      · rw [if_pos hnan]
      · rw [if_neg hnan, if_pos h]
    · rw [if_pos (by simp [h])]
    · rw [if_pos (by simp [h])]
  · intro a p hlen hnan
    rw [calculateMSE, if_neg (by simp [hlen])]
    rcases hnan with h | h
    · rw [if_pos (by simp [h])]
    · rw [if_pos (by simp [h])]
  · intro a p hlen
    rw [calculateR2Score, if_neg (by simp [hlen])]
    by_cases hnan : (a.any isNaN || p.any isNaN) = true
    · exact ⟨num 0, by rw [if_pos hnan], rfl⟩
    · rw [if_neg hnan]
      by_cases hz : r2SStot a = num 0
      · exact ⟨num 0, by rw [if_pos hz], rfl⟩
      · rw [if_neg hz]
        cases hr : (jsub (num 1) (jdiv (r2SSres a p) (r2SStot a))).isNaN with
        | true => exact ⟨num 0, by simp [hr], rfl⟩
        | false => exact ⟨_, by simp [hr], hr⟩
  · intro a p hlen
    rw [calculateMSE, if_neg (by simp [hlen])]
    by_cases hnan : (a.any isNaN || p.any isNaN) = true
    · exact ⟨num 0, by rw [if_pos hnan], rfl⟩
    · rw [if_neg hnan]
      cases hm : (jdiv (r2SSres a p) (num (a.length : ℚ))).isNaN with
      | true => exact ⟨num 0, by simp [hm], rfl⟩
      | false => exact ⟨_, by simp [hm], hm⟩

/-- Witness for C5: the NaN-guard at a concrete NaN-containing pair of
equal length, and the length-mismatch error at a concrete mismatched pair. -/
theorem C5_witness :
    ([num 1, nan].length = [num 1, num 2].length ∧
      calculateR2Score [num 1, nan] [num 1, num 2] = Except.ok (num 0)) ∧
      (∃ e, calculateR2Score [num 1] [] = Except.error e) :=
  ⟨⟨rfl, C5_theorem.2.2.1 [num 1, nan] [num 1, num 2] rfl (Or.inr (Or.inl rfl))⟩,
    (C5_theorem.1 [num 1] []).mpr (by simp)⟩
/-- A JS number that is a non-negative rational, infinity, or NaN: the
possible shapes of a sum of squares. -/
def NonnegJS (x : JSNum) : Prop := (∃ q : ℚ, x = num q ∧ 0 ≤ q) ∨ x = inf ∨ x = nan

theorem nonnegJS_jpow2 (y : JSNum) : NonnegJS (jpow2 y) := by
  cases y with
  | num q => exact Or.inl ⟨q * q, rfl, mul_self_nonneg q⟩
  | nan => exact Or.inr (Or.inr rfl)
  | inf => exact Or.inr (Or.inl rfl)
  | ninf => exact Or.inr (Or.inl rfl)

theorem nonnegJS_jadd {a b : JSNum} (ha : NonnegJS a) (hb : NonnegJS b) :
    NonnegJS (jadd a b) := by
  rcases ha with ⟨x, rfl, hx⟩ | rfl | rfl <;>
    rcases hb with ⟨y, rfl, hy⟩ | rfl | rfl
  · exact Or.inl ⟨x + y, rfl, add_nonneg hx hy⟩
  · exact Or.inr (Or.inl rfl)
  · exact Or.inr (Or.inr rfl)
  · exact Or.inr (Or.inl rfl)
  · exact Or.inr (Or.inl rfl)
  · exact Or.inr (Or.inr rfl)
  · exact Or.inr (Or.inr rfl)
  · exact Or.inr (Or.inr rfl)
  · exact Or.inr (Or.inr rfl)

theorem foldl_jadd_nonnegJS {β : Type} {f : β → JSNum} {l : List β}
    (hl : ∀ x ∈ l, NonnegJS (f x)) {acc : JSNum} (hacc : NonnegJS acc) :
    NonnegJS (l.foldl (fun a x => jadd a (f x)) acc) := by
  induction l generalizing acc with
  | nil => exact hacc
  | cons h t ih =>
      exact ih (fun x hx => hl x (List.mem_cons_of_mem _ hx))
        (nonnegJS_jadd hacc (hl h (List.mem_cons_self _ _)))

theorem nonnegJS_r2SStot (a : List JSNum) : NonnegJS (r2SStot a) :=
  foldl_jadd_nonnegJS (fun _ _ => nonnegJS_jpow2 _) (Or.inl ⟨0, rfl, le_refl 0⟩)

theorem nonnegJS_r2SSres (a p : List JSNum) : NonnegJS (r2SSres a p) :=
  foldl_jadd_nonnegJS (fun _ _ => nonnegJS_jpow2 _) (Or.inl ⟨0, rfl, le_refl 0⟩)

/-- Claim C9: for equal-length NaN-free inputs, `calculateR2Score` returns a
value that is at most 1 (in the JavaScript order, which includes the
negative-infinity case), and no lower bound holds: for every bound `B` there
are NaN-free equal-length inputs whose R-squared is below `B`. -/
theorem C9_theorem :
    (∀ a p : List JSNum, a.length = p.length →
      a.any isNaN = false → p.any isNaN = false →
      ∃ v, calculateR2Score a p = Except.ok v ∧ jsLe v (num 1) = true) ∧
    (∀ B : ℚ, ∃ v,
      calculateR2Score [num 0, num 1] [num 0, num (1 + (1 + |B|))] = Except.ok v ∧
        jsLe v (num B) = true) := by
  constructor
  · intro a p hlen ha hp
    rw [calculateR2Score, if_neg (by simp [hlen]), if_neg (by simp [ha, hp])]
    by_cases hz : r2SStot a = num 0
    · exact ⟨num 0, by rw [if_pos hz], by norm_num [jsLe]⟩
    · rw [if_neg hz]
      rcases nonnegJS_r2SStot a with ⟨q, hq, hq0⟩ | hq | hq
    
      · have hqpos : 0 < q := lt_of_le_of_ne hq0 (by rintro rfl; exact hz (by simpa using hq))
        rcases nonnegJS_r2SSres a p with ⟨r, hr, hr0⟩ | hr | hr
        · rw [hq, hr, jdiv_num (ne_of_gt hqpos), jsub_num]
          refine ⟨num (1 - r / q), by simp, ?_⟩
          simp only [jsLe_num, decide_eq_true_eq]
          have : 0 ≤ r / q := div_nonneg hr0 (le_of_lt hqpos)
          linarith
        · rw [hq, hr]
          have hdiv : jdiv inf (num q) = inf := by
            simp [jdiv, not_lt.mpr (le_of_lt hqpos)]
          rw [hdiv]
          exact ⟨ninf, by simp [jsub, jadd, jneg, isNaN], rfl⟩
        · rw [hq, hr]
          exact ⟨num 0, by simp [jdiv, jsub, jadd, jneg, isNaN], by norm_num [jsLe]⟩
      · rcases nonnegJS_r2SSres a p with ⟨r, hr, hr0⟩ | hr | hr
        · rw [hq, hr]
          exact ⟨num 1, by simp [jdiv, jsub, jadd, jneg, isNaN], by norm_num [jsLe]⟩
        · rw [hq, hr]
          exact ⟨num 0, by simp [jdiv, jsub, jadd, jneg, isNaN], by norm_num [jsLe]⟩
        · rw [hq, hr]
          exact ⟨num 0, by simp [jdiv, jsub, jadd, jneg, isNaN], by norm_num [jsLe]⟩
      · rcases nonnegJS_r2SSres a p with ⟨r, hr, hr0⟩ | hr | hr <;> rw [hq, hr]
        · exact ⟨num 0, by simp [jdiv, jsub, jadd, jneg, isNaN], by norm_num [jsLe]⟩
        · exact ⟨num 0, by simp [jdiv, jsub, jadd, jneg, isNaN], by norm_num [jsLe]⟩
        · exact ⟨num 0, by simp [jdiv, jsub, jadd, jneg, isNaN], by norm_num [jsLe]⟩
  · intro B
    have hres : r2SSres [num 0, num 1] [num 0, num (1 + (1 + |B|))] =
        num ((0 + (0 + -0) * (0 + -0)) + (1 + -(1 + (1 + |B|))) * (1 + -(1 + (1 + |B|)))) := rfl
    have hres2 : r2SSres [num 0, num 1] [num 0, num (1 + (1 + |B|))] =
        num ((1 + |B|) * (1 + |B|)) := by
      rw [hres]
      congr 1
      ring
    have htot : r2SStot [num 0, num 1] = num (1 / 2) := by
      with_unfolding_all decide
    rw [calculateR2Score, if_neg (by simp), if_neg (by simp [isNaN]),
      if_neg (by rw [htot]; intro h; rw [JSNum.num.injEq] at h; norm_num at h)]
    rw [hres2, htot, jdiv_num (by norm_num), jsub_num]
    refine ⟨num (1 - (1 + |B|) * (1 + |B|) / (1 / 2)), by simp, ?_⟩
    simp only [jsLe_num, decide_eq_true_eq]
    have hB : -|B| ≤ B := neg_abs_le B
    have hB0 : 0 ≤ |B| := abs_nonneg B
    nlinarith [sq_nonneg (|B|)]

/-- Witness for C9 at the concrete pair `[1, 2]`, `[3, 4]`. -/
theorem C9_witness :
    ∃ v, calculateR2Score [num 1, num 2] [num 3, num 4] = Except.ok v ∧
      jsLe v (num 1) = true :=
  C9_theorem.1 [num 1, num 2] [num 3, num 4] rfl rfl rfl
/-- Folding `min` only decreases the accumulator. -/
theorem foldl_min_le_init (t : List ℚ) (a : ℚ) : t.foldl min a ≤ a := by
  induction t generalizing a with
  | nil => exact le_refl a
  | cons h tl ih => exact le_trans (ih (min a h)) (min_le_left a h)

/-- Folding `max` only increases the accumulator. -/
theorem init_le_foldl_max (t : List ℚ) (a : ℚ) : a ≤ t.foldl max a := by
  induction t generalizing a with
  | nil => exact le_refl a
  | cons h tl ih => exact le_trans (le_max_left a h) (ih (max a h))

/-- Folding `min` over positive values from a positive start stays positive. -/
theorem foldl_min_pos (t : List ℚ) (a : ℚ) (ha : 0 < a) (ht : ∀ x ∈ t, 0 < x) :
    0 < t.foldl min a := by
  induction t generalizing a with
  | nil => exact ha
  | cons h tl ih =>
      exact ih (min a h) (lt_min ha (ht h (List.mem_cons_self _ _)))
        (fun x hx => ht x (List.mem_cons_of_mem _ hx))

/-- `Math.min(...l)` of a non-empty list of positive values is positive. -/
theorem qListMin_pos {l : List ℚ} (hne : l ≠ []) (hpos : ∀ x ∈ l, 0 < x) :
    0 < qListMin l := by
  cases l with
  | nil => exact absurd rfl hne
  | cons h t =>
      exact foldl_min_pos t h (hpos h (List.mem_cons_self _ _))
        (fun x hx => hpos x (List.mem_cons_of_mem _ hx))

/-- `Math.min(...l)` is at most `Math.max(...l)` for non-empty `l`. -/
theorem qListMin_le_qListMax {l : List ℚ} (hne : l ≠ []) :
    qListMin l ≤ qListMax l := by
  cases l with
  | nil => exact absurd rfl hne
  | cons h t => exact le_trans (foldl_min_le_init t h) (init_le_foldl_max t h)

/-- Claim C6: for a model trained on a non-empty positive series (so that
`yMin = min(series)` and `yMax = max(series)` are its normalization
parameters), `predictNextDay` always returns a finite value inside
`[0.8 * yMin, 1.2 * yMax]`, whatever the network outputs and whatever the
next-day index; and when the raw network output is NaN the returned value is
exactly `yMin`. -/
theorem C6_theorem (M : JSMath) (rawOut : List JSNum → JSNum) (xs ys : List ℚ)
    (idx : ℕ) (hne : ys ≠ []) (hpos : ∀ y ∈ ys, 0 < y) :
    (∃ q : ℚ, predictNextDay M (mkTrainedModel rawOut xs ys) idx = num q ∧
      qListMin ys * (8 / 10) ≤ q ∧ q ≤ qListMax ys * (12 / 10)) ∧
    (rawOut (createAdvancedFeatures M (qListMin xs) (qListMax xs) (qListMin ys)
        (qListMax ys) (idx : ℚ) ys (min idx (ys.length - 1))) = nan →
      predictNextDay M (mkTrainedModel rawOut xs ys) idx = num (qListMin ys)) := by
  have hymin : 0 < qListMin ys := qListMin_pos hne hpos
  have hminmax : qListMin ys ≤ qListMax ys := qListMin_le_qListMax hne
  have hymax : 0 < qListMax ys := lt_of_lt_of_le hymin hminmax
  have hlohi : qListMin ys * (8 / 10) ≤ qListMax ys * (12 / 10) := by nlinarith
  constructor
  · rw [predictNextDay]
    simp only [mkTrainedModel]
    cases hraw : rawOut (createAdvancedFeatures M (qListMin xs) (qListMax xs) (qListMin ys)
        (qListMax ys) (idx : ℚ) ys (min idx (ys.length - 1))) with
    | num x =>
        simp only [jmul_num, jadd_num, isNaN_num, Bool.false_eq_true, if_false,
          jmin_num, jmax_num]
        exact ⟨_, rfl, le_max_left _ _, max_le hlohi (min_le_left _ _)⟩
    | nan =>
        refine ⟨qListMin ys, ?_, by nlinarith, by nlinarith⟩
        simp [jmul, jadd, isNaN]
    | inf =>
        by_cases hdeg : qListMax ys - qListMin ys = 0
        · refine ⟨qListMin ys, ?_, by nlinarith, by nlinarith⟩
          simp [jmul, jadd, isNaN, hdeg]
        · by_cases hdpos : 0 < qListMax ys - qListMin ys
          · refine ⟨max (qListMin ys * (8 / 10)) (qListMax ys * (12 / 10)), ?_,
              le_max_left _ _, max_le hlohi (le_refl _)⟩
            simp [jmul, jadd, isNaN, hdeg, hdpos, jmin, jmax]
          · refine ⟨qListMin ys * (8 / 10), ?_, le_refl _, hlohi⟩
            simp [jmul, jadd, isNaN, hdeg, hdpos, jmin, jmax]
    | ninf =>
        by_cases hdeg : qListMax ys - qListMin ys = 0
        · refine ⟨qListMin ys, ?_, by nlinarith, by nlinarith⟩
          simp [jmul, jadd, isNaN, hdeg]
        · by_cases hdpos : 0 < qListMax ys - qListMin ys
          · refine ⟨qListMin ys * (8 / 10), ?_, le_refl _, hlohi⟩
            simp [jmul, jadd, isNaN, hdeg, hdpos, jmin, jmax]
          · refine ⟨max (qListMin ys * (8 / 10)) (qListMax ys * (12 / 10)), ?_,
              le_max_left _ _, max_le hlohi (le_refl _)⟩
            simp [jmul, jadd, isNaN, hdeg, hdpos, jmin, jmax]
  · intro hnan
    rw [predictNextDay]
    simp only [mkTrainedModel] at hnan ⊢
    rw [hnan]
    simp [jmul, jadd, isNaN]

/-- Witness for C6: a network that always outputs NaN, trained on the
one-point series `[5]`, queried at index 3. -/
theorem C6_witness :
    (∃ q : ℚ, predictNextDay M0 (mkTrainedModel (fun _ => nan) [0] [5]) 3 = num q ∧
        qListMin [5] * (8 / 10) ≤ q ∧ q ≤ qListMax [5] * (12 / 10)) ∧
      predictNextDay M0 (mkTrainedModel (fun _ => nan) [0] [5]) 3 = num (qListMin [5]) :=
  ⟨(C6_theorem M0 (fun _ => nan) [0] [5] 3 (by simp)
      (by intro y hy; rw [List.mem_singleton] at hy; rw [hy]; norm_num)).1,
    (C6_theorem M0 (fun _ => nan) [0] [5] 3 (by simp)
      (by intro y hy; rw [List.mem_singleton] at hy; rw [hy]; norm_num)).2 rfl⟩

/-- Claim C4: whenever the fallback succeeds and the enhanced path fails at
any step (data processing, the training race, inference, or the metrics),
`enhancedPredictStock` returns exactly the fallback result; the internal
error never propagates. -/
theorem C4_theorem (M : JSMath) (race : Option (List JSNum → JSNum))
    (stockData : List PricePoint) (fr : PredictionResult) (e : String)
    (hfast : fastPredictStock M stockData = Except.ok fr)
    (hinner : enhancedInner M race stockData = Except.error e) :
    enhancedPredictStock M race stockData = Except.ok fr := by
  rw [enhancedPredictStock, hfast, hinner]

/-- A 10-point constant series with distinct dates. -/
def constSeries : List PricePoint :=
  [⟨"2024-01-01", 1⟩, ⟨"2024-01-02", 1⟩, ⟨"2024-01-03", 1⟩, ⟨"2024-01-04", 1⟩,
   ⟨"2024-01-05", 1⟩, ⟨"2024-01-08", 1⟩, ⟨"2024-01-09", 1⟩, ⟨"2024-01-10", 1⟩,
   ⟨"2024-01-11", 1⟩, ⟨"2024-01-12", 1⟩]

/-- Witness for C4: on the constant series with the training race timing out,
the enhanced path fails with the timeout error and the caller receives the
fallback result unchanged. -/
theorem C4_witness :
    fastPredictStock M0 constSeries =
        Except.ok ⟨num 1, num 1, num 50, Trend.stable, num 0, num 0⟩ ∧
      enhancedInner M0 none constSeries = Except.error "ML timeout" ∧
      enhancedPredictStock M0 none constSeries =
        Except.ok ⟨num 1, num 1, num 50, Trend.stable, num 0, num 0⟩ :=
  ⟨by with_unfolding_all decide, by with_unfolding_all decide,
    C4_theorem M0 none constSeries _ "ML timeout" (by with_unfolding_all decide)
      (by with_unfolding_all decide)⟩

/-- Claim C10: `fastPredictStock` never mutates its input.  In the
state-threaded embedding, the contents of the `stockData` array after the
call are identical to the contents before it, and the returned value is the
same as the pure function computes; every read goes through a non-mutating
operation and all arithmetic happens on freshly derived arrays. -/
theorem C10_theorem (M : JSMath) (stockData : List PricePoint) :
    (fastPredictStockSt M stockData).2 = stockData ∧
      (fastPredictStockSt M stockData).1 = fastPredictStock M stockData := by
  rw [fastPredictStockSt, fastPredictStock]
  by_cases h : stockData.length < 10
  · simp [jsLengthSt, jsMapSt, h]
  · simp [jsLengthSt, jsMapSt, h, pricesOf]
theorem jget_fin {p : List ℚ} {i : ℕ} (h : i < p.length) : (jget p i).IsFin := by
  simp only [jget, List.getElem?_eq_getElem h]
  exact ⟨p[i], rfl⟩

theorem jget_pos {p : List ℚ} (hpos : ∀ x ∈ p, 0 < x) (i : ℕ) (h : i < p.length) :
    ∃ q, jget p i = num q ∧ 0 < q := by
  refine ⟨p[i], ?_, hpos _ (List.getElem_mem h)⟩
  simp only [jget, List.getElem?_eq_getElem h]

theorem lastN_length {α : Type} {n : ℕ} {l : List α} (h : n ≤ l.length) :
    (lastN n l).length = n := by
  simp only [lastN, List.length_drop]
  omega

theorem lastN_subset {α : Type} {n : ℕ} {l : List α} {x : α} (h : x ∈ lastN n l) :
    x ∈ l := List.mem_of_mem_drop h

theorem fastShortMA_fin (p : List ℚ) : (fastShortMA p).IsFin := by
  rw [fastShortMA, jsum_map_num]
  exact IsFin.jdiv ⟨_, rfl⟩ (by norm_num)

theorem fastLongMA_fin (p : List ℚ) : (fastLongMA p).IsFin := by
  rw [fastLongMA, jsum_map_num]
  exact IsFin.jdiv ⟨_, rfl⟩ (by norm_num)

theorem returnsOf_fin {p : List ℚ} (hpos : ∀ x ∈ p, 0 < x) :
    ∀ r ∈ returnsOf p, r.IsFin := by
  intro r hr
  rw [returnsOf] at hr
  obtain ⟨⟨i, x⟩, hmem, rfl⟩ := List.mem_map.mp hr
  have h1 := List.mem_enumFrom (by simpa [List.enum] using hmem)
  have hi : i < p.length := by
    have h2 := h1.2.1
    have h3 : p.tail.length = p.length - 1 := List.length_tail p
    have h4 : (p.drop 1).length = p.length - 1 := List.length_drop 1 p
    omega
  obtain ⟨q, hq, hq0⟩ := jget_pos hpos i hi
  rw [hq]
  exact IsFin.jdiv (IsFin.jsub ⟨x, rfl⟩ ⟨q, rfl⟩) (ne_of_gt hq0)

theorem returnsOf_length (p : List ℚ) : (returnsOf p).length = p.length - 1 := by
  simp [returnsOf, List.enum_length]

theorem varianceOf_nonneg {p : List ℚ} (hpos : ∀ x ∈ p, 0 < x) (hlen : 2 ≤ p.length) :
    ∃ v, varianceOf p = num v ∧ 0 ≤ v := by
  have hretfin := returnsOf_fin hpos
  have hrl : (returnsOf p).length = p.length - 1 := returnsOf_length p
  have hnz : ((returnsOf p).length : ℚ) ≠ 0 := by
    have h1 : p.length - 1 ≠ 0 := by omega
    rw [hrl]
    exact Nat.cast_ne_zero.mpr h1
  have hnn : (0 : ℚ) ≤ ((returnsOf p).length : ℚ) := by positivity
  obtain ⟨m, hm⟩ : (avgReturnOf p).IsFin :=
    IsFin.jdiv (jsum_fin hretfin) hnz
  have hterms : ∀ r ∈ returnsOf p,
      ∃ q, jpow2 (jsub r (avgReturnOf p)) = num q ∧ 0 ≤ q := by
    intro r hr
    obtain ⟨y, rfl⟩ := hretfin r hr
    rw [hm]
    exact ⟨(y - m) * (y - m), by simp, mul_self_nonneg _⟩
  obtain ⟨s, hs, hs0⟩ := foldl_jadd_nonneg hterms (le_refl (0 : ℚ))
  rw [varianceOf, hs, jdiv_num hnz]
  exact ⟨_, rfl, div_nonneg hs0 hnn⟩

theorem volatility_fin (M : JSMath) {p : List ℚ} (hpos : ∀ x ∈ p, 0 < x)
    (hlen : 2 ≤ p.length) : ∃ v, fastVolatility M p = num v := by
  obtain ⟨v, hv, hv0⟩ := varianceOf_nonneg hpos hlen
  rw [fastVolatility, hv, jsqrt_num_nonneg M.sqrt hv0]
  exact ⟨_, rfl⟩

theorem fastSlope_fin {p : List ℚ} (h : 10 ≤ p.length) : (fastSlope p).IsFin := by
  have hN : fastN p = 10 := lastN_length h
  have hreclen : (fastRecent p).length = 10 := lastN_length h
  have hxs : fastXs p = (List.range 10).map (fun i : ℕ => (i : ℚ)) := by rw [fastXs, hN]
  have hsumx : fastSumX p = num 45 := by
    rw [fastSumX, hxs]
    with_unfolding_all decide
  have hsumxx : fastSumXX p = num 285 := by
    rw [fastSumXX, hxs]
    with_unfolding_all decide
  have hsumyfin : (fastSumY p).IsFin := by
    rw [fastSumY, jsum_map_num]
    exact ⟨_, rfl⟩
  have hsumxyfin : (fastSumXY p).IsFin := by
    rw [fastSumXY]
    refine foldl_jadd_fin
      (fun q : ℕ × ℚ => jmul (num q.2) (jget (fastRecent p) q.1)) ?_ ⟨0, rfl⟩
    rintro ⟨i, x⟩ hq
    have h1 := List.mem_enumFrom (by simpa [List.enum] using hq)
    have hi : i < (fastRecent p).length := by
      have h2 := h1.2.1
      have hxslen : (fastXs p).length = 10 := by
        rw [hxs]
        simp
      omega
    exact IsFin.jmul ⟨x, rfl⟩ (jget_fin hi)
  have hden : jsub (jmul (num (fastN p : ℚ)) (fastSumXX p))
      (jmul (fastSumX p) (fastSumX p)) = num 825 := by
    rw [hN, hsumxx, hsumx]
    simp only [jmul_num, jsub_num]
    norm_num
  rw [fastSlope, hden]
  refine IsFin.jdiv (IsFin.jsub (IsFin.jmul ⟨_, rfl⟩ hsumxyfin)
    (IsFin.jmul ⟨45, hsumx⟩ hsumyfin)) (by norm_num)

theorem fastConfidence_bounds (M : JSMath) (l : List PricePoint) (hlen : 10 ≤ l.length)
    (hpos : ∀ d ∈ l, 0 < d.price) :
    ∃ r q, fastPredictStock M l = Except.ok r ∧ r.confidence = num q ∧
      45 ≤ q ∧ q ≤ 90 := by
  have hplen : (pricesOf l).length = l.length := List.length_map l PricePoint.price
  have h10p : 10 ≤ (pricesOf l).length := by omega
  have hppos : ∀ x ∈ pricesOf l, 0 < x := by
    intro x hx
    obtain ⟨d, hd, rfl⟩ := List.mem_map.mp hx
    exact hpos d hd
  obtain ⟨cur, hcurg, hcur0⟩ := jget_pos hppos ((pricesOf l).length - 1) (by omega)
  have hcurE : fastCurrentPrice (pricesOf l) = num cur := hcurg
  obtain ⟨sma, hsma⟩ := fastShortMA_fin (pricesOf l)
  obtain ⟨lma, hlma⟩ := fastLongMA_fin (pricesOf l)
  obtain ⟨sl, hsl⟩ := fastSlope_fin h10p
  have hmac : (fastMaConsistency (pricesOf l)).IsFin := by
    rw [fastMaConsistency, hcurE]
    exact IsFin.jdiv (IsFin.jabs (IsFin.jsub ⟨sma, hsma⟩ ⟨lma, hlma⟩)) (ne_of_gt hcur0)
  have hbase : (fastBaseConfidence (pricesOf l)).IsFin := by
    rw [fastBaseConfidence, fastTrendStrength]
    exact IsFin.jmin ⟨90, rfl⟩ (IsFin.jadd
      (IsFin.jmul (IsFin.jabs ⟨sl, hsl⟩) ⟨1000, rfl⟩) (IsFin.jmul hmac ⟨100, rfl⟩))
  obtain ⟨vol, hvol⟩ := volatility_fin M hppos (by omega)
  have hpen : (fastVolatilityPenalty M (pricesOf l)).IsFin := by
    rw [fastVolatilityPenalty, hvol]
    exact IsFin.jmin ⟨30, rfl⟩ (IsFin.jmul ⟨vol, rfl⟩ ⟨500, rfl⟩)
  obtain ⟨b, hb⟩ := hbase
  obtain ⟨pe, hpe⟩ := hpen
  have hconf : fastConfidence M (pricesOf l) = num (max 45 (min 90 (b - pe))) := by
    rw [fastConfidence, hb, hpe]
    simp
  have hc1 : (45 : ℚ) ≤ max 45 (min 90 (b - pe)) := le_max_left _ _
  have hc2 : max 45 (min 90 (b - pe)) ≤ (90 : ℚ) :=
    max_le (by norm_num) (min_le_left _ _)
  obtain ⟨h1, h2⟩ := toFixedQ_mem_Icc 1 450 900
    (by norm_num) (by norm_num) hc1 hc2
  rw [fastPredictStock, if_neg (by omega)]
  refine ⟨_, toFixedQ 1 (max 45 (min 90 (b - pe))), rfl, ?_, h1, h2⟩
  show jToFixed 1 (fastConfidence M (pricesOf l)) = num (toFixedQ 1 (max 45 (min 90 (b - pe))))
  rw [hconf]
  rw [jToFixed_num]

theorem foldl_objInsert (t : List PricePoint) :
    ∀ acc : List (String × ℚ),
      ((acc.map Prod.fst) ++ t.map PricePoint.date).Nodup →
      t.foldl (fun o d => jsObjInsert o d.date d.price) acc =
        acc ++ t.map (fun d => (d.date, d.price)) := by
  induction t with
  | nil => intro acc _; simp
  | cons d ds ih =>
      intro acc hnd
      have hnotmem : d.date ∉ acc.map Prod.fst := by
        rw [List.map_cons, List.nodup_append] at hnd
        intro hmem
        exact hnd.2.2 hmem (List.mem_cons_self _ _)
      have hins : jsObjInsert acc d.date d.price = acc ++ [(d.date, d.price)] := by
        rw [jsObjInsert, if_neg]
        simpa using hnotmem
      rw [List.foldl_cons, hins, ih]
      · simp
      · rw [List.map_append]
        simp only [List.map_cons, List.map_nil]
        have : (acc.map Prod.fst ++ [(d.date, d.price).1]) ++ ds.map PricePoint.date =
            acc.map Prod.fst ++ (d.date :: ds.map PricePoint.date) := by
          rw [List.append_assoc]
          rfl
        rw [this]
        simpa using hnd

theorem objFromList_nodup {l : List PricePoint} (h : (l.map PricePoint.date).Nodup) :
    objFromList l = l.map (fun d => (d.date, d.price)) := by
  have h2 := foldl_objInsert l [] (by simpa using h)
  simpa [objFromList] using h2

theorem lookupClose_eq_some_mem {o : List (String × ℚ)} {d : String} {v : ℚ}
    (h : lookupClose o d = some v) : v ∈ o.map Prod.snd := by
  rw [lookupClose] at h
  obtain ⟨e, he, hv⟩ := Option.map_eq_some'.mp h
  exact List.mem_map.mpr ⟨e, List.mem_of_find?_eq_some he, hv⟩

theorem lookupClose_isSome {o : List (String × ℚ)} {d : String}
    (h : d ∈ o.map Prod.fst) : (lookupClose o d).isSome := by
  obtain ⟨e, he, hfst⟩ := List.mem_map.mp h
  have hsome : (o.find? (fun e => e.1 = d)).isSome :=
    List.find?_isSome.mpr ⟨e, he, by simp [hfst]⟩
  rw [lookupClose]
  cases hf : o.find? (fun e => e.1 = d) with
  | none => rw [hf] at hsome; simp at hsome
  | some e2 => rfl

theorem mapM_option_some {α β : Type} (f : α → Option β) (l : List α)
    (h : ∀ x ∈ l, (f x).isSome) :
    ∃ ys, l.mapM f = some ys ∧ ys.length = l.length ∧
      ∀ y ∈ ys, ∃ x ∈ l, f x = some y := by
  induction l with
  | nil => exact ⟨[], rfl, rfl, by simp⟩
  | cons a t ih =>
      obtain ⟨b, hb⟩ := Option.isSome_iff_exists.mp (h a (List.mem_cons_self _ _))
      obtain ⟨ys, hys, hlen, hmem⟩ := ih (fun x hx => h x (List.mem_cons_of_mem _ hx))
      refine ⟨b :: ys, ?_, by simp [hlen], ?_⟩
      · rw [List.mapM_cons, hb, hys]
        rfl
      · intro y hy
        rcases List.mem_cons.mp hy with rfl | hy2
        · exact ⟨a, List.mem_cons_self _ _, hb⟩
        · obtain ⟨x, hx, hfx⟩ := hmem y hy2
          exact ⟨x, List.mem_cons_of_mem _ hx, hfx⟩

theorem processStockData_ok {l : List PricePoint}
    (hnd : (l.map PricePoint.date).Nodup) (hne : 0 < l.length) :
    ∃ pd, processStockData (objFromList l) = Except.ok pd ∧
      pd.prices.length = l.length ∧
      (∀ x ∈ pd.prices, x ∈ pricesOf l) ∧
      pd.xs = (List.range l.length).map (fun i : ℕ => (i : ℚ)) := by
  rw [objFromList_nodup hnd]
  have hkeys : (l.map (fun d => (d.date, d.price))).map Prod.fst =
      l.map PricePoint.date := by
    rw [List.map_map]
    rfl
  have hvals : (l.map (fun d => (d.date, d.price))).map Prod.snd = pricesOf l := by
    rw [List.map_map]
    rfl
  have hperm : (jsSortKeys ((l.map (fun d => (d.date, d.price))).map Prod.fst)).Perm
      ((l.map (fun d => (d.date, d.price))).map Prod.fst) :=
    List.perm_insertionSort _ _
  have hdlen : (jsSortKeys ((l.map (fun d => (d.date, d.price))).map Prod.fst)).length
      = l.length := by
    rw [hperm.length_eq, hkeys, List.length_map]
  have hall : ∀ d ∈ jsSortKeys ((l.map (fun d => (d.date, d.price))).map Prod.fst),
      (lookupClose (l.map (fun d => (d.date, d.price))) d).isSome := by
    intro d hd
    exact lookupClose_isSome (hperm.subset hd)
  obtain ⟨prices, hmapM, hplen, hpmem⟩ := mapM_option_some _ _ hall
  rw [processStockData]
  simp only [hmapM]
  rw [if_neg (by omega)]
  refine ⟨_, rfl, ?_, ?_, ?_⟩
  · show prices.length = l.length
    omega
  · intro x hx
    obtain ⟨d2, hd2, hlk⟩ := hpmem x hx
    have := lookupClose_eq_some_mem hlk
    rwa [hvals] at this
  · show (List.range (jsSortKeys ((l.map (fun d => (d.date, d.price))).map
      Prod.fst)).length).map (fun i : ℕ => (i : ℚ)) = _
    rw [hdlen]

theorem truthy_jget_fin {p : List ℚ} {i : ℕ} (h : truthy (jget p i) = true) :
    (jget p i).IsFin := by
  rw [jget] at h ⊢
  cases hp : p[i]? with
  | some q => exact ⟨q, rfl⟩
  | none => rw [hp] at h; simp [truthy] at h

theorem clean_fin (m : TrainedModel) (q : ℕ × JSNum) :
    (if (q.2).isNaN then
        (if truthy (jget m.trainingPrices q.1) then jget m.trainingPrices q.1
         else num ((m.yMin + m.yMax) / 2))
      else jmax (num (m.yMin * (8 / 10))) (jmin (num (m.yMax * (12 / 10))) q.2)).IsFin := by
  obtain ⟨i, v⟩ := q
  cases v with
  | nan =>
      simp only [isNaN, if_true]
      by_cases ht : truthy (jget m.trainingPrices i) = true
      · rw [if_pos ht]
        exact truthy_jget_fin ht
      · rw [if_neg ht]
        exact ⟨_, rfl⟩
  | num x =>
      simp only [isNaN, Bool.false_eq_true, if_false, jmin_num, jmax_num]
      exact ⟨_, rfl⟩
  | inf =>
      simp only [isNaN, Bool.false_eq_true, if_false]
      exact ⟨_, rfl⟩
  | ninf =>
      simp only [isNaN, Bool.false_eq_true, if_false]
      exact ⟨_, rfl⟩

theorem getPredictionsForData_fin (M : JSMath) (m : TrainedModel) (xs : List ℚ) :
    ∀ v ∈ getPredictionsForData M m xs, v.IsFin := by
  intro v hv
  simp only [getPredictionsForData] at hv
  obtain ⟨q, _, rfl⟩ := List.mem_map.mp hv
  exact clean_fin m q

theorem getPredictionsForData_length (M : JSMath) (m : TrainedModel) (xs : List ℚ) :
    (getPredictionsForData M m xs).length = xs.length := by
  simp [getPredictionsForData, List.enum_length]

theorem r2_ok_not_nan {a p : List JSNum} (hlen : a.length = p.length) :
    ∃ v, calculateR2Score a p = Except.ok v ∧ v.isNaN = false := by
  rw [calculateR2Score, if_neg (by simp [hlen])]
  by_cases hnan : (a.any isNaN || p.any isNaN) = true
  · exact ⟨num 0, by rw [if_pos hnan], rfl⟩
  · rw [if_neg hnan]
    by_cases hz : r2SStot a = num 0
    · exact ⟨num 0, by rw [if_pos hz], rfl⟩
    · rw [if_neg hz]
      cases hr : (jsub (num 1) (jdiv (r2SSres a p) (r2SStot a))).isNaN with
      | true => exact ⟨num 0, by simp [hr], rfl⟩
      | false => exact ⟨_, by simp [hr], hr⟩

theorem mse_ok_shape {a p : List JSNum} (hlen : a.length = p.length)
    (hne : 0 < a.length) :
    ∃ v, calculateMSE a p = Except.ok v ∧ ((∃ q, v = num q) ∨ v = inf) := by
  rw [calculateMSE, if_neg (by simp [hlen])]
  by_cases hnan : (a.any isNaN || p.any isNaN) = true
  · exact ⟨num 0, by rw [if_pos hnan], Or.inl ⟨0, rfl⟩⟩
  · rw [if_neg hnan]
    have hlq : ((a.length : ℚ)) ≠ 0 := Nat.cast_ne_zero.mpr (by omega)
    rcases nonnegJS_r2SSres a p with ⟨r, hr, hr0⟩ | hr | hr
    · have hdiv : jdiv (r2SSres a p) (num (a.length : ℚ)) = num (r / a.length) := by
        rw [hr, jdiv_num hlq]
      exact ⟨num (r / a.length), by simp [hdiv], Or.inl ⟨_, rfl⟩⟩
    · have hdiv : jdiv (r2SSres a p) (num (a.length : ℚ)) = inf := by
        rw [hr]
        simp [jdiv, not_lt.mpr (show (0 : ℚ) ≤ (a.length : ℚ) by positivity)]
      exact ⟨inf, by simp [hdiv, isNaN], Or.inr rfl⟩
    · have hdiv : jdiv (r2SSres a p) (num (a.length : ℚ)) = nan := by rw [hr]; rfl
      exact ⟨num 0, by simp [hdiv, isNaN], Or.inl ⟨0, rfl⟩⟩

theorem baseConf_fin {x : JSNum} (h : x.isNaN = false) :
    (jmax (num 0) (jmin (num 100) (jmul x (num 100)))).IsFin := by
  cases x with
  | num q => exact ⟨max 0 (min 100 (q * 100)), by simp⟩
  | nan => simp [isNaN] at h
  | inf =>
      have h1 : jmul inf (num 100) = inf := by norm_num [jmul]
      rw [h1]
      exact ⟨100, by norm_num [jmin, jmax]⟩
  | ninf =>
      have h1 : jmul ninf (num 100) = ninf := by norm_num [jmul]
      rw [h1]
      exact ⟨0, by norm_num [jmin, jmax]⟩

theorem mseConf_fin {x : JSNum} {cur : ℚ} (hcur : 0 < cur)
    (hx : (∃ q, x = num q) ∨ x = inf) :
    (jmax (num 0) (jsub (num 100) (jmul (jdiv x (num cur)) (num 100)))).IsFin := by
  rcases hx with ⟨q, rfl⟩ | rfl
  · exact IsFin.jmax ⟨0, rfl⟩ (IsFin.jsub ⟨100, rfl⟩
      (IsFin.jmul (IsFin.jdiv ⟨q, rfl⟩ (ne_of_gt hcur)) ⟨100, rfl⟩))
  · have h1 : jdiv inf (num cur) = inf := by simp [jdiv, not_lt.mpr hcur.le]
    have h2 : jmul inf (num 100) = inf := by norm_num [jmul]
    have h3 : jsub (num 100) inf = ninf := by simp [jsub, jadd, jneg]
    rw [h1, h2, h3]
    exact ⟨0, rfl⟩

theorem calcVol_fin (M : JSMath) {p : List ℚ} (hpos : ∀ x ∈ p, 0 < x)
    (hlen : 2 ≤ p.length) : ∃ v, calculateVolatility M p = num v := by
  rw [calculateVolatility, if_neg (by omega)]
  obtain ⟨v, hv, hv0⟩ := varianceOf_nonneg hpos hlen
  rw [hv, jsqrt_num_nonneg _ hv0]
  exact ⟨_, rfl⟩

theorem except_bind_ok {ε α β : Type} (x : α) (f : α → Except ε β) :
    (Except.ok x >>= f : Except ε β) = f x := rfl

theorem enhancedConfidence_bounds (M : JSMath) (rawOut : List JSNum → JSNum) (l : List PricePoint)
    (hlen : 10 ≤ l.length) (hpos : ∀ d ∈ l, 0 < d.price)
    (hnd : (l.map PricePoint.date).Nodup) :
    ∃ r q, enhancedInner M (some rawOut) l = Except.ok r ∧
      enhancedPredictStock M (some rawOut) l = Except.ok r ∧
      r.confidence = num q ∧ 40 ≤ q ∧ q ≤ 95 := by
  have hppos : ∀ x ∈ pricesOf l, 0 < x := by
    intro x hx
    obtain ⟨d, hd, rfl⟩ := List.mem_map.mp hx
    exact hpos d hd
  obtain ⟨pd, hpd, hplen2, hpmem2, hxs⟩ := processStockData_ok hnd (by omega)
  have hppos2 : ∀ x ∈ pd.prices, 0 < x := fun x hx => hppos x (hpmem2 x hx)
  have hxslen : pd.xs.length = l.length := by rw [hxs]; simp
  have hpredlen : (getPredictionsForData M (mkTrainedModel rawOut pd.xs pd.prices)
      pd.xs).length = pd.xs.length := getPredictionsForData_length _ _ _
  have hlen1 : (pd.prices.map num).length =
      (getPredictionsForData M (mkTrainedModel rawOut pd.xs pd.prices) pd.xs).length := by
    rw [List.length_map, hplen2, hpredlen, hxslen]
  obtain ⟨v2, hr2, hv2⟩ := r2_ok_not_nan hlen1
  obtain ⟨vm, hmse, hvm⟩ := mse_ok_shape hlen1 (by rw [List.length_map, hplen2]; omega)
  have hlast : l.length - 1 < (pricesOf l).length := by
    rw [pricesOf, List.length_map]
    omega
  obtain ⟨cur, hsome, hcur0⟩ : ∃ c, (pricesOf l)[l.length - 1]? = some c ∧ 0 < c :=
    ⟨_, List.getElem?_eq_getElem hlast, hppos _ (List.getElem_mem hlast)⟩
  obtain ⟨b, hb⟩ := baseConf_fin hv2
  obtain ⟨c, hc⟩ := mseConf_fin hcur0 hvm
  obtain ⟨vv, hvv⟩ := calcVol_fin M hppos2 (by omega)
  have hc1 : (40 : ℚ) ≤ max 40 (min 95 (b * (6/10) + c * (4/10) - min 20 (vv * 10))) :=
    le_max_left _ _
  have hc2 : max 40 (min 95 (b * (6/10) + c * (4/10) - min 20 (vv * 10))) ≤ (95 : ℚ) :=
    max_le (by norm_num) (min_le_left _ _)
  obtain ⟨h1, h2⟩ := toFixedQ_mem_Icc 1 400 950
    (by norm_num) (by norm_num) hc1 hc2
  have hex : ∃ r, enhancedInner M (some rawOut) l = Except.ok r ∧
      r.confidence =
        num (toFixedQ 1 (max 40 (min 95 (b * (6/10) + c * (4/10) - min 20 (vv * 10))))) := by
    simp only [enhancedInner, hpd, except_bind_ok, hr2, hmse, hsome, hb, hc, hvv,
      jmul_num, jadd_num, jsub_num, jmin_num, jmax_num, jToFixed_num]
    exact ⟨_, rfl, rfl⟩
  obtain ⟨r, hri, hrc⟩ := hex
  obtain ⟨fr, hfr⟩ : ∃ fr, fastPredictStock M l = Except.ok fr := by
    rw [fastPredictStock, if_neg (by omega)]
    exact ⟨_, rfl⟩
  refine ⟨r, _, hri, ?_, hrc, h1, h2⟩
  rw [enhancedPredictStock, hfr, hri]

/-- Claim C3: on every valid series (length at least 10, positive prices,
and, for the enhanced path, the date-uniqueness invariant of the data
model), the confidence of the fallback result is a finite value in
`[45, 90]`, and the confidence produced by the successful ML branch of
`enhancedPredictStock` is a finite value in `[40, 95]`, for every outcome
of the nondeterministic network training. -/
theorem C3_theorem :
    (∀ (M : JSMath) (l : List PricePoint), 10 ≤ l.length →
      (∀ d ∈ l, 0 < d.price) →
      ∃ r q, fastPredictStock M l = Except.ok r ∧ r.confidence = num q ∧
        45 ≤ q ∧ q ≤ 90) ∧
    (∀ (M : JSMath) (rawOut : List JSNum → JSNum) (l : List PricePoint),
      10 ≤ l.length → (∀ d ∈ l, 0 < d.price) → (l.map PricePoint.date).Nodup →
      ∃ r q, enhancedInner M (some rawOut) l = Except.ok r ∧
        enhancedPredictStock M (some rawOut) l = Except.ok r ∧
        r.confidence = num q ∧ 40 ≤ q ∧ q ≤ 95) :=
  ⟨fun M l h1 h2 => fastConfidence_bounds M l h1 h2,
    fun M rawOut l h1 h2 h3 => enhancedConfidence_bounds M rawOut l h1 h2 h3⟩

/-- Witness for C3 at the constant 10-point series, with a network that
always outputs 0 on the enhanced path. -/
theorem C3_witness :
    (∃ r q, fastPredictStock M0 constSeries = Except.ok r ∧
      r.confidence = num q ∧ 45 ≤ q ∧ q ≤ 90) ∧
    (∃ r q, enhancedInner M0 (some (fun _ => num 0)) constSeries = Except.ok r ∧
      enhancedPredictStock M0 (some (fun _ => num 0)) constSeries = Except.ok r ∧
      r.confidence = num q ∧ 40 ≤ q ∧ q ≤ 95) :=
  ⟨C3_theorem.1 M0 constSeries (by with_unfolding_all decide)
      (by with_unfolding_all decide),
    C3_theorem.2 M0 (fun _ => num 0) constSeries (by with_unfolding_all decide)
      (by with_unfolding_all decide) (by with_unfolding_all decide)⟩
